import Mathlib

/-!
Shallow embedding of the lineage-cleanup pipeline (files `dag_om.py` and
`deletarlinhagem.py`).  HTTP servers are modelled as oracles: a request is a
function application, a non-success status or transport failure is an
`Except.error` or a dedicated constructor.  While-loops are embedded with
explicit fuel; `none` means the loop did not finish within the fuel.
-/

/-- Python truthiness of an optional string (`None` and `''` are falsy). -/
def optTruthy : Option String → Bool
  | none => false
  | some s => s ≠ ""

/-- Embeds `get_data(url, token, after)`: the request carries the cursor
parameter only when `after` is truthy (`params = {'after': after} if after
else {}`); the server oracle `srv` closes over url and token and returns the
JSON page or raises (`Except.error`) on a non-200 status. -/
def get_data {π : Type} (srv : Option String → Except Unit π) (after : Option String) :
    Except Unit π :=
  srv (if optTruthy after then after else none)

/-- One item of a schema-listing response (only `fullyQualifiedName` is read). -/
structure SchemaItem where
  fullyQualifiedName : String
deriving DecidableEq

/-- The `paging` object of a listing response. -/
structure Paging where
  after : Option String
deriving DecidableEq

/-- A schema-listing page: `{'data': [...], 'paging': {...}}`. -/
structure SchemaPage where
  data : List SchemaItem
  paging : Paging
deriving DecidableEq

/-- Embeds `extract_fully_qualified_names`: the `fullyQualifiedName` of every
item of the page's `data` array. -/
def extract_fully_qualified_names (json_data : SchemaPage) : List String :=
  json_data.data.map (fun item => item.fullyQualifiedName)

/-- Embeds the `while True` pagination loop of `fetch_schemas` (identical in
both variants).  `acc` is `result`, `k` counts the pages requested so far;
the loop follows `paging['after']` when present and breaks otherwise.
Returns `none` when the fuel runs out before the loop breaks. -/
def fetchLoop (srv : Option String → Except Unit SchemaPage) :
    Nat → Option String → List String → Nat → Option (Except Unit (List String × Nat))
  | 0, _, _, _ => none
  | fuel + 1, after, acc, k =>
    match get_data srv after with
    | .error e => some (.error e)
    | .ok page =>
      let acc' := acc ++ extract_fully_qualified_names page
      match page.paging.after with
      | some a => fetchLoop srv fuel (some a) acc' (k + 1)
      | none => some (.ok (acc', k + 1))

/-- Embeds `fetch_schemas`: run the pagination loop from the first page. -/
def fetch_schemas (srv : Option String → Except Unit SchemaPage) (fuel : Nat) :
    Option (Except Unit (List String × Nat)) :=
  fetchLoop srv fuel none [] 0

/-- `ServesChain srv after pages`: starting from cursor state `after`, the
server serves exactly the responses `pages` in order; every page but the last
carries a truthy `after` cursor (which indexes the next request) and the last
page carries none.  This is the shape of a finite paginated response
sequence ending in a page without an `after` cursor. -/
def ServesChain (srv : Option String → Except Unit SchemaPage) :
    Option String → List SchemaPage → Prop
  | _, [] => False
  | after, [p] => get_data srv after = .ok p ∧ p.paging.after = none
  | after, p :: q :: rest =>
    get_data srv after = .ok p ∧ optTruthy p.paging.after = true ∧
      ServesChain srv p.paging.after (q :: rest)

/-- Table-listing raw item: the four fields `create_table_files` projects. -/
structure TableObj where
  id : String
  fullyQualifiedName : String
  href : String
  tableType : String
deriving DecidableEq

/-- A table-listing page; `paging` may be absent
(`'paging' in json_data and 'after' in json_data['paging']`). -/
structure TablePage where
  data : List TableObj
  paging : Option Paging
deriving DecidableEq

/-- Embeds the inner `while True` loop of `create_table_files` for one schema.
The oracle answer `.ok none` models a falsy JSON body (`if not json_data:
break`), `.error` a non-200 status raised by `get_data`.  Result `none`
means the loop did not break within the fuel. -/
def tableLoop (get : Option String → Except Unit (Option TablePage)) :
    Nat → Option String → List TableObj → Option (Except Unit (List TableObj))
  | 0, _, _ => none
  | fuel + 1, after, acc =>
    match get_data get after with
    | .error e => some (.error e)
    | .ok none => some (.ok acc)
    | .ok (some page) =>
      let filtered := page.data.map (fun obj =>
        TableObj.mk obj.id obj.fullyQualifiedName obj.href obj.tableType)
      let acc' := acc ++ filtered
      match page.paging with
      | some pg =>
        match pg.after with
        | some a => tableLoop get fuel (some a) acc'
        | none => some (.ok acc')
      | none => some (.ok acc')

/-- Embeds the schema loop of `create_table_files`.  For each schema name one
per-schema artifact `(name, records)` is written in order; `get_data` raising
(`.error`) propagates out of the loop, so the list of written artifacts stops
there and the `Bool` records that the task aborted with an exception.
`none` means some inner pagination loop ran out of fuel. -/
def create_table_files (srv : String → Option String → Except Unit (Option TablePage))
    (fuel : Nat) : List String → Option (List (String × List TableObj) × Bool)
  | [] => some ([], false)
  | name :: rest =>
    match tableLoop (srv name) fuel none [] with
    | none => none
    | some (.error _) => some ([], true)
    | some (.ok tbls) =>
      (create_table_files srv fuel rest).map
        (fun r => ((name, tbls) :: r.1, r.2))

/-- A node of a lineage graph; `node.get('fullyQualifiedName', '')` makes the
field optional. -/
structure Node where
  fullyQualifiedName : Option String
deriving DecidableEq

/-- An edge of a lineage graph.  `hasLineageDetails` records whether the
`'lineageDetails'` key is present; the entity ids and names come from `.get`
calls, hence optional. -/
structure LinEdge where
  toEntity : Option String
  fromEntity : Option String
  toEntityFullyQualifiedName : Option String
  fromEntityFullyQualifiedName : Option String
  hasLineageDetails : Bool
deriving DecidableEq

/-- The `entity` object of a lineage graph
(`item['linhagem']['entity']['fullyQualifiedName']`). -/
structure Entity where
  fullyQualifiedName : String
deriving DecidableEq

/-- A lineage graph as fetched by `get_lineage_by_id`; `nodes`,
`downstreamEdges` and `upstreamEdges` keys may be absent. -/
structure Lineage where
  entity : Entity
  nodes : Option (List Node)
  downstreamEdges : Option (List LinEdge)
  upstreamEdges : Option (List LinEdge)
deriving DecidableEq

/-- One record of the stage-3 artifact: `{'id': id, 'linhagem': linhagem}`. -/
structure FilterResult where
  id : String
  linhagem : Lineage
deriving DecidableEq

/-- `needle` occurs as a contiguous substring of `hay`. -/
def containsSub (needle hay : List Char) : Bool :=
  (List.range (hay.length + 1)).any (fun i => needle.isPrefixOf (hay.drop i))

/-- Embeds `'vw' in fully_qualified_name.lower()`. -/
def hasVw (s : String) : Bool :=
  containsSub ['v', 'w'] (s.toList.map Char.toLower)

/-- Embeds `'downstreamEdges' not in linhagem or not linhagem['downstreamEdges']
or 'lineageDetails' not in linhagem['downstreamEdges'][0]`. -/
def downstreamOk (lin : Lineage) : Bool :=
  match lin.downstreamEdges with
  | none => true
  | some [] => true
  | some (e :: _) => !e.hasLineageDetails

/-- Embeds the symmetric check on `linhagem['upstreamEdges'][0]`. -/
def upstreamOk (lin : Lineage) : Bool :=
  match lin.upstreamEdges with
  | none => true
  | some [] => true
  | some (e :: _) => !e.hasLineageDetails

/-- Embeds `processar_item` of `dag_om.py` (the loop body of
`extract_and_save_lineage` in `deletarlinhagem.py` is the same code): for an
eligible table, fetch the lineage (oracle `fetch`, `none` on failure) and
append one `{'id', 'linhagem'}` record per node whose qualified name lacks
`"vw"`, gated by the first-edge `lineageDetails` checks. -/
def processar_item (fetch : String → Option Lineage) (item : TableObj) :
    List FilterResult :=
  if item.tableType = "Regular" ∨ item.tableType = "Partitioned" ∨
      item.tableType = "External" then
    match fetch item.id with
    | none => []
    | some linhagem =>
      match linhagem.nodes with
      | none => []
      | some ns =>
        if 0 < ns.length then
          ns.filterMap (fun node =>
            if !hasVw (node.fullyQualifiedName.getD "") then
              if downstreamOk linhagem then
                if upstreamOk linhagem then
                  some { id := item.id, linhagem := linhagem }
                else none
              else none
            else none)
        else []
  else []

/-- Outcome of one HTTP DELETE as seen by `exclude_lineage`: a status code,
or a transport exception. -/
inductive DelResp where
  | ok (code : Nat)
  | exn
deriving DecidableEq

/-- Return value of `exclude_lineage`:
`{'from_id': ..., 'to_id': ..., 'status': ...}`. -/
structure DelRecord where
  from_id : String
  to_id : String
  status : String
deriving DecidableEq

/-- Embeds `exclude_lineage(from_id, to_id)` (same code in both variants):
DELETE on the path parameterized by `(from_id, to_id)`; status 200 yields
`'Deletada com sucesso'`, any other status or an exception yields
`'Erro ao deletar'`; nothing propagates. -/
def exclude_lineage (del : String → String → DelResp) (from_id to_id : String) :
    DelRecord :=
  match del from_id to_id with
  | .ok 200 => { from_id := from_id, to_id := to_id, status := "Deletada com sucesso" }
  | .ok _ => { from_id := from_id, to_id := to_id, status := "Erro ao deletar" }
  | .exn => { from_id := from_id, to_id := to_id, status := "Erro ao deletar" }

/-- Two id pairs denote the same unordered `{fromId, toId}` pair. -/
def samePairP (p q : String × String) : Prop :=
  (p.1 = q.1 ∧ p.2 = q.2) ∨ (p.1 = q.2 ∧ p.2 = q.1)

instance (p q : String × String) : Decidable (samePairP p q) := by
  unfold samePairP; infer_instance

namespace DagOm

/-- One row of `resultados_delecao.json` in the `dag_om.py` variant. -/
structure DeletionResult where
  from_id : String
  from_fully_qualified_name : String
  to_id : String
  to_fully_qualified_name : String
  status : String
deriving DecidableEq

/-- The (from_id, to_id) pair recorded in a result row. -/
def keyOf (r : DeletionResult) : String × String := (r.from_id, r.to_id)

/-- State threaded through `delete_lineage` in `dag_om.py`:
`processed_lineage_pairs`, `resultados`, and the trace of
`exclude_lineage(a, b)` argument pairs actually issued. -/
structure DelState where
  pairs : List (String × String)
  res : List DeletionResult
  calls : List (String × String)
deriving DecidableEq

/-- Embeds the downstream-edge loop body of `delete_lineage` in `dag_om.py`:
`to_id = edge.get('toEntity')`; on truthy ids and an unprocessed unordered
pair, call `exclude_lineage(from_id, to_id)`, append the result row and
record `(from_id, to_id)` in the processed set. -/
def downStep (del : String → String → DelResp) (fromId fromFqn : String)
    (st : DelState) (edge : LinEdge) : DelState :=
  match edge.toEntity with
  | none => st
  | some toId =>
    if fromId ≠ "" ∧ toId ≠ "" ∧ (fromId, toId) ∉ st.pairs ∧ (toId, fromId) ∉ st.pairs then
      { pairs := st.pairs ++ [(fromId, toId)],
        res := st.res ++ [{ from_id := fromId,
                            from_fully_qualified_name := fromFqn,
                            to_id := toId,
                            to_fully_qualified_name := edge.toEntityFullyQualifiedName.getD "",
                            status := (exclude_lineage del fromId toId).status }],
        calls := st.calls ++ [(fromId, toId)] }
    else st

/-- Embeds the upstream-edge loop body of `delete_lineage` in `dag_om.py`:
`to_id = edge.get('fromEntity')`; on a pass, call
`exclude_lineage(to_id, from_id)` (reversed order), append a result row with
`from_id`/`to_id` as read from the item/edge, and record `(to_id, from_id)`. -/
def upStep (del : String → String → DelResp) (fromId fromFqn : String)
    (st : DelState) (edge : LinEdge) : DelState :=
  match edge.fromEntity with
  | none => st
  | some toId =>
    if fromId ≠ "" ∧ toId ≠ "" ∧ (fromId, toId) ∉ st.pairs ∧ (toId, fromId) ∉ st.pairs then
      { pairs := st.pairs ++ [(toId, fromId)],
        res := st.res ++ [{ from_id := fromId,
                            from_fully_qualified_name := fromFqn,
                            to_id := toId,
                            to_fully_qualified_name := edge.fromEntityFullyQualifiedName.getD "",
                            status := (exclude_lineage del toId fromId).status }],
        calls := st.calls ++ [(toId, fromId)] }
    else st

/-- Embeds the per-item body of `delete_lineage` in `dag_om.py`: the
downstream-edge loop followed by the upstream-edge loop. -/
def processItem (del : String → String → DelResp) (st : DelState)
    (item : FilterResult) : DelState :=
  let fromId := item.id
  let fqn := item.linhagem.entity.fullyQualifiedName
  let st1 := (item.linhagem.downstreamEdges.getD []).foldl (downStep del fromId fqn) st
  (item.linhagem.upstreamEdges.getD []).foldl (upStep del fromId fqn) st1

/-- Embeds `delete_lineage` of `dag_om.py` over the stage-3 artifact, with
`processed_lineage_pairs` starting empty. -/
def delete_lineage (del : String → String → DelResp) (data : List FilterResult) :
    DelState :=
  data.foldl (processItem del) ⟨[], [], []⟩

end DagOm

namespace DLV

/-- One row of `resultados_delecao.json` in the `deletarlinhagem.py` variant
(no qualified names are recorded there). -/
structure DeletionResult where
  from_id : String
  to_id : String
  status : String
deriving DecidableEq

/-- The (from_id, to_id) pair recorded in a result row. -/
def keyOf (r : DeletionResult) : String × String := (r.from_id, r.to_id)

/-- State of `delete_lineage` in `deletarlinhagem.py`: the rows and the trace
of `exclude_lineage` argument pairs; there is no processed-pairs set. -/
structure DelState where
  res : List DeletionResult
  calls : List (String × String)
deriving DecidableEq

/-- Embeds the downstream-edge loop body of `delete_lineage` in
`deletarlinhagem.py`: on truthy ids, always call
`exclude_lineage(from_id, to_id)` and append a row. -/
def downStep (del : String → String → DelResp) (fromId : String)
    (st : DelState) (edge : LinEdge) : DelState :=
  match edge.toEntity with
  | none => st
  | some toId =>
    if fromId ≠ "" ∧ toId ≠ "" then
      { res := st.res ++ [{ from_id := fromId, to_id := toId,
                            status := (exclude_lineage del fromId toId).status }],
        calls := st.calls ++ [(fromId, toId)] }
    else st

/-- Embeds the upstream-edge loop body of `delete_lineage` in
`deletarlinhagem.py`: `to_id = edge.get('fromEntity')`; on truthy ids call
`exclude_lineage(to_id, from_id)` and append a row. -/
def upStep (del : String → String → DelResp) (fromId : String)
    (st : DelState) (edge : LinEdge) : DelState :=
  match edge.fromEntity with
  | none => st
  | some toId =>
    if fromId ≠ "" ∧ toId ≠ "" then
      { res := st.res ++ [{ from_id := fromId, to_id := toId,
                            status := (exclude_lineage del toId fromId).status }],
        calls := st.calls ++ [(toId, fromId)] }
    else st

/-- Embeds the per-item body of `delete_lineage` in `deletarlinhagem.py`. -/
def processItem (del : String → String → DelResp) (st : DelState)
    (item : FilterResult) : DelState :=
  let fromId := item.id
  let st1 := (item.linhagem.downstreamEdges.getD []).foldl (downStep del fromId) st
  (item.linhagem.upstreamEdges.getD []).foldl (upStep del fromId) st1

/-- Embeds `delete_lineage` of `deletarlinhagem.py` over the stage-3
artifact. -/
def delete_lineage (del : String → String → DelResp) (data : List FilterResult) :
    DelState :=
  data.foldl (processItem del) ⟨[], []⟩

end DLV

namespace DagOm

/-- Every recorded result row has its id pair, in one of the two orders, in
the processed-pairs set. -/
def Recorded (st : DelState) : Prop :=
  ∀ r ∈ st.res, (r.from_id, r.to_id) ∈ st.pairs ∨ (r.to_id, r.from_id) ∈ st.pairs

/-- No two result rows denote the same unordered `{fromId, toId}` pair. -/
def NoDupPairs (st : DelState) : Prop :=
  st.res.Pairwise (fun a b => ¬ samePairP (keyOf a) (keyOf b))

/-- Invariant threaded through the deletion loops of `dag_om.py`. -/
def Inv (st : DelState) : Prop := Recorded st ∧ NoDupPairs st

end DagOm

/-- Replace the `lineageDetails` flags of the edges at positions `≥ i`. -/
def overrideFrom (f : Nat → Bool) : Nat → List LinEdge → List LinEdge
  | _, [] => []
  | i, e :: t => { e with hasLineageDetails := f i } :: overrideFrom f (i + 1) t

/-- Keep the first edge, replace the `lineageDetails` flags of all later
edges according to `f`. -/
def overrideTail (f : Nat → Bool) : List LinEdge → List LinEdge
  | [] => []
  | e :: t => e :: overrideFrom f 1 t

/-- `lin` with the `lineageDetails` flags of all downstream (resp. upstream)
edges at index ≥ 1 replaced arbitrarily; nodes and first edges untouched. -/
def overrideLin (lin : Lineage) (f g : Nat → Bool) : Lineage :=
  { lin with downstreamEdges := lin.downstreamEdges.map (overrideTail f),
             upstreamEdges := lin.upstreamEdges.map (overrideTail g) }

-- ### Concrete inputs used by witnesses and counterexamples

/-- A two-page schema server: the base page carries cursor `"c1"`. -/
def srvC7 : Option String → Except Unit SchemaPage := fun c =>
  match c with
  | none => .ok ⟨[⟨"sch1"⟩, ⟨"sch2"⟩], ⟨some "c1"⟩⟩
  | some "c1" => .ok ⟨[⟨"sch3"⟩], ⟨none⟩⟩
  | some _ => .error ()

/-- The response chain `srvC7` serves from the first request. -/
def pagesC7 : List SchemaPage :=
  [⟨[⟨"sch1"⟩, ⟨"sch2"⟩], ⟨some "c1"⟩⟩, ⟨[⟨"sch3"⟩], ⟨none⟩⟩]

/-- A schema server whose every response carries `paging.after = ""`. -/
def srvC9 : Option String → Except Unit SchemaPage := fun _ =>
  .ok ⟨[⟨"sch1"⟩], ⟨some ""⟩⟩

/-- The page `srvC9` always serves. -/
def pageC9 : SchemaPage := ⟨[⟨"sch1"⟩], ⟨some ""⟩⟩

/-- A table server that fails (non-200) for schema `"s1"` and serves one
table for every other schema. -/
def srvC3 : String → Option String → Except Unit (Option TablePage) := fun name _ =>
  if name = "s1" then .error ()
  else .ok (some ⟨[⟨"id2", "db.s2.t", "href2", "Regular"⟩], none⟩)

/-- A lineage graph with one plain node and one node whose qualified name
contains `"Vw"`; no edges. -/
def linC2 : Lineage := ⟨⟨"db.t1"⟩, some [⟨some "db.tabA"⟩, ⟨some "db.myVwB"⟩], none, none⟩

/-- A `Regular` table record with id `"t1"`. -/
def itemC2 : TableObj := ⟨"t1", "db.t1", "href1", "Regular"⟩

/-- Lineage oracle serving `linC2` for table `"t1"`. -/
def fetchC2 : String → Option Lineage := fun i => if i = "t1" then some linC2 else none

/-- A lineage graph with two nodes free of `"vw"`; no edges. -/
def linC8 : Lineage := ⟨⟨"db.t1"⟩, some [⟨some "db.tabA"⟩, ⟨some "db.tabB"⟩], none, none⟩

/-- Lineage oracle serving `linC8` for table `"t1"`. -/
def fetchC8 : String → Option Lineage := fun i => if i = "t1" then some linC8 else none

/-- A lineage graph with one node and two downstream edges, none carrying
`lineageDetails`. -/
def linC5 : Lineage :=
  ⟨⟨"db.t1"⟩, some [⟨some "db.tabA"⟩],
    some [⟨some "e1", none, some "db.e1", none, false⟩,
          ⟨some "e2", none, some "db.e2", none, false⟩], none⟩

/-- Lineage oracle serving `linC5` for table `"t1"`. -/
def fetchC5 : String → Option Lineage := fun i => if i = "t1" then some linC5 else none

/-- Lineage oracle serving `linC5` with `lineageDetails` added to every
downstream edge at index ≥ 1. -/
def fetchC5b : String → Option Lineage := fun i =>
  if i = "t1" then some (overrideLin linC5 (fun _ => true) (fun _ => true)) else none

/-- A delete oracle that always raises a transport exception. -/
def delExn : String → String → DelResp := fun _ _ => DelResp.exn

/-- A delete oracle that always answers status 200. -/
def delOk : String → String → DelResp := fun _ _ => DelResp.ok 200

/-- Stage-3 artifact in which the unordered pair `{A, B}` occurs once as a
downstream edge of table `A` and once as an upstream edge of table `B`. -/
def dataC1 : List FilterResult :=
  [⟨"A", ⟨⟨"db.A"⟩, none, some [⟨some "B", none, some "db.B", none, false⟩], none⟩⟩,
   ⟨"B", ⟨⟨"db.B"⟩, none, none, some [⟨none, some "A", none, some "db.A", false⟩]⟩⟩]

/-- An upstream edge whose `fromEntity` is `"X"`. -/
def edgeC4 : LinEdge := ⟨none, some "X", none, some "db.X", false⟩

-- ## Theorems

theorem fetchLoop_succ_cont (srv : Option String → Except Unit SchemaPage)
    (fuel : Nat) (after : Option String) (acc : List String) (k : Nat)
    (page : SchemaPage) (a : String)
    (h1 : get_data srv after = .ok page) (h2 : page.paging.after = some a) :
    fetchLoop srv (fuel + 1) after acc k =
      fetchLoop srv fuel (some a) (acc ++ extract_fully_qualified_names page) (k + 1) := by
  simp [fetchLoop, h1, h2]

theorem fetchLoop_succ_last (srv : Option String → Except Unit SchemaPage)
    (fuel : Nat) (after : Option String) (acc : List String) (k : Nat)
    (page : SchemaPage)
    (h1 : get_data srv after = .ok page) (h2 : page.paging.after = none) :
    fetchLoop srv (fuel + 1) after acc k =
      some (.ok (acc ++ extract_fully_qualified_names page, k + 1)) := by
  simp [fetchLoop, h1, h2]

theorem fetchLoop_chain (srv : Option String → Except Unit SchemaPage)
    (pages : List SchemaPage) :
    ∀ (after : Option String) (acc : List String) (k : Nat),
      ServesChain srv after pages →
      fetchLoop srv pages.length after acc k =
        some (.ok (acc ++ (pages.map extract_fully_qualified_names).flatten,
                   k + pages.length)) := by
  induction pages with
  | nil => intro after acc k h; exact absurd h (by simp [ServesChain])
  | cons p tail ih =>
    intro after acc k h
    cases tail with
    | nil =>
      obtain ⟨h1, h2⟩ := h
      rw [List.length_cons, fetchLoop_succ_last srv _ after acc k p h1 h2]
      simp
    | cons q rest =>
      obtain ⟨h1, h2, h3⟩ := h
      have hafter : ∃ a, p.paging.after = some a := by
        cases hpa : p.paging.after with
        | none => rw [hpa] at h2; simp [optTruthy] at h2
        | some a => exact ⟨a, rfl⟩
      obtain ⟨a, ha⟩ := hafter
      rw [ha] at h3
      rw [List.length_cons, fetchLoop_succ_cont srv _ after acc k p a h1 ha,
        ih (some a) (acc ++ extract_fully_qualified_names p) (k + 1) h3]
      simp [List.append_assoc]
      omega

theorem foldl_inv {σ α : Type} (P : σ → Prop) (f : σ → α → σ)
    (hstep : ∀ s a, P s → P (f s a)) :
    ∀ (l : List α) (s : σ), P s → P (l.foldl f s) := by
  intro l
  induction l with
  | nil => intro s h; exact h
  | cons a t ih => intro s h; exact ih (f s a) (hstep s a h)

theorem foldl_rel {σ σ' α : Type} (R : σ → σ' → Prop) (f : σ → α → σ) (g : σ' → α → σ')
    (hstep : ∀ s s' a, R s s' → R (f s a) (g s' a)) :
    ∀ (l : List α) (s : σ) (s' : σ'), R s s' → R (l.foldl f s) (l.foldl g s') := by
  intro l
  induction l with
  | nil => intro s s' h; exact h
  | cons a t ih => intro s s' h; exact ih _ _ (hstep s s' a h)

/-- C7: for a finite paginated response sequence ending in a page without an
`after` cursor, `fetch_schemas` consumes exactly that many pages and returns
the concatenation of all pages' `fullyQualifiedName` items in order. -/
theorem fetch_schemas_pagination_exact (srv : Option String → Except Unit SchemaPage)
    (pages : List SchemaPage) (h : ServesChain srv none pages) :
    fetch_schemas srv pages.length =
      some (.ok ((pages.map extract_fully_qualified_names).flatten, pages.length)) := by
  have := fetchLoop_chain srv pages none [] 0 h
  simpa [fetch_schemas] using this

theorem fetch_schemas_pagination_exact_witness :
    fetch_schemas srvC7 2 = some (.ok (["sch1", "sch2", "sch3"], 2)) := by
  have h : ServesChain srvC7 none pagesC7 := ⟨rfl, rfl, rfl, rfl⟩
  simpa [pagesC7, extract_fully_qualified_names] using
    fetch_schemas_pagination_exact srvC7 pagesC7 h

theorem fetchLoop_empty_after_none (srv : Option String → Except Unit SchemaPage)
    (p0 : SchemaPage) (h1 : srv none = .ok p0) (h2 : p0.paging.after = some "") :
    ∀ (fuel : Nat) (after : Option String) (acc : List String) (k : Nat),
      optTruthy after = false → fetchLoop srv fuel after acc k = none := by
  intro fuel
  induction fuel with
  | zero => intro after acc k _; rfl
  | succ n ih =>
    intro after acc k h
    have hget : get_data srv after = .ok p0 := by
      unfold get_data; rw [h]; simpa using h1
    simp only [fetchLoop, hget, h2]
    exact ih (some "") _ _ rfl

/-- C9: if the first page's paging carries `after` with the empty-string
value, `get_data` omits the cursor (re-issuing the first-page request) and the
schema-pagination loop never terminates, whatever the fuel. -/
theorem fetch_schemas_empty_after_diverges (srv : Option String → Except Unit SchemaPage)
    (p0 : SchemaPage) (h1 : srv none = .ok p0) (h2 : p0.paging.after = some "") :
    (∀ after, optTruthy after = false → get_data srv after = srv none) ∧
      ∀ fuel, fetch_schemas srv fuel = none := by
  constructor
  · intro after h; unfold get_data; rw [h]; simp
  · intro fuel
    exact fetchLoop_empty_after_none srv p0 h1 h2 fuel none [] 0 rfl

theorem fetch_schemas_empty_after_diverges_witness :
    get_data srvC9 (some "") = srvC9 none ∧ fetch_schemas srvC9 7 = none := by
  have h := fetch_schemas_empty_after_diverges srvC9 pageC9 rfl rfl
  exact ⟨h.1 (some "") rfl, h.2 7⟩

/-- C3 (corrected): a non-success status (`get_data` raising) while paginating
one schema's table listing aborts `create_table_files` entirely: no artifact
is written from that point on and the remaining schemas are never visited. -/
theorem create_table_files_abort_on_error
    (srv : String → Option String → Except Unit (Option TablePage))
    (fuel : Nat) (name : String) (rest : List String)
    (h : tableLoop (srv name) fuel none [] = some (.error ())) :
    create_table_files srv fuel (name :: rest) = some ([], true) := by
  simp [create_table_files, h]

theorem create_table_files_abort_on_error_witness :
    create_table_files srvC3 3 ["s1", "s2"] = some ([], true) :=
  create_table_files_abort_on_error srvC3 3 "s1" ["s2"] rfl

/-- C3 counterexample: with a server failing only on schema `"s1"`, running
the stage over `["s1", "s2"]` yields no artifact for `"s2"` (the whole task
aborts), although `"s2"` alone collects fine — so a failing schema does abort
collection for the remaining schemas. -/
theorem create_table_files_abort_cex :
    create_table_files srvC3 3 ["s1", "s2"] = some ([], true) ∧
      create_table_files srvC3 3 ["s2"] =
        some ([("s2", [⟨"id2", "db.s2.t", "href2", "Regular"⟩])], false) := by
  constructor <;> rfl

theorem filterMap_const_if {α β : Type} (p : α → Bool) (c : β) :
    ∀ l : List α,
      l.filterMap (fun a => if p a then some c else none) =
        List.replicate (l.countP p) c := by
  intro l
  induction l with
  | nil => rfl
  | cons a t ih =>
    by_cases h : p a = true
    · simp [List.filterMap_cons, h, List.countP_cons, ih, List.replicate_succ]
    · simp [List.filterMap_cons, h, List.countP_cons, ih]

/-- C8: for an eligible table whose fetched graph passes the first-edge
checks, the extraction stage appends one `{id, linhagem}` record per node
whose qualified name lacks `"vw"` — with `k` such nodes, `k` identical
records. -/
theorem processar_item_replicate (fetch : String → Option Lineage) (item : TableObj)
    (lin : Lineage) (ns : List Node)
    (helig : item.tableType = "Regular" ∨ item.tableType = "Partitioned" ∨
      item.tableType = "External")
    (hf : fetch item.id = some lin) (hn : lin.nodes = some ns)
    (hd : downstreamOk lin = true) (hu : upstreamOk lin = true) :
    processar_item fetch item =
      List.replicate (ns.countP (fun n => !hasVw (n.fullyQualifiedName.getD "")))
        { id := item.id, linhagem := lin } := by
  unfold processar_item
  rw [if_pos helig]
  simp only [hf]
  simp only [hn]
  simp only [hd, hu, if_true]
  by_cases hlen : 0 < ns.length
  · rw [if_pos hlen]
    exact filterMap_const_if _ _ ns
  · rw [if_neg hlen]
    have hns : ns = [] := by
      cases ns with
      | nil => rfl
      | cons a t => simp at hlen
    subst hns; rfl

theorem processar_item_replicate_witness :
    processar_item fetchC8 itemC2 =
      List.replicate 2 { id := "t1", linhagem := linC8 } := by
  have h := processar_item_replicate fetchC8 itemC2 linC8
    [⟨some "db.tabA"⟩, ⟨some "db.tabB"⟩] (Or.inl rfl) rfl rfl rfl rfl
  simpa using h

/-- C2 counterexample: `linC2` contains a node whose qualified name contains
`"Vw"`, yet the extraction stage still emits a filter result for it (one
record, for the other node) — the graph is not excluded entirely. -/
theorem processar_item_vw_cex :
    hasVw "db.myVwB" = true ∧
      processar_item fetchC2 itemC2 = [{ id := "t1", linhagem := linC2 }] := by
  constructor <;> rfl

/-- C2 (corrected): the `"vw"` filter is applied per node, not per graph: an
eligible table's fetched graph contributes no filter result iff every node's
qualified name contains `"vw"` (case-insensitively) or one of the first-edge
checks fails; a graph with some `"vw"`-free node always contributes records. -/
theorem processar_item_empty_iff (fetch : String → Option Lineage) (item : TableObj)
    (lin : Lineage) (ns : List Node)
    (helig : item.tableType = "Regular" ∨ item.tableType = "Partitioned" ∨
      item.tableType = "External")
    (hf : fetch item.id = some lin) (hn : lin.nodes = some ns) :
    processar_item fetch item = [] ↔
      (ns.all (fun n => hasVw (n.fullyQualifiedName.getD "")) = true ∨
        downstreamOk lin = false ∨ upstreamOk lin = false) := by
  by_cases hd : downstreamOk lin = true
  · by_cases hu : upstreamOk lin = true
    · rw [processar_item_replicate fetch item lin ns helig hf hn hd hu]
      rw [List.replicate_eq_nil_iff, List.countP_eq_zero]
      constructor
      · intro h
        left
        rw [List.all_eq_true]
        intro n hnmem
        have := h n hnmem
        simpa using this
      · intro h
        rcases h with h | h | h
        · rw [List.all_eq_true] at h
          intro n hnmem
          simp [h n hnmem]
        · rw [hd] at h; cases h
        · rw [hu] at h; cases h
    · -- upstream gate fails: result is empty and the right side holds
      have hu' : upstreamOk lin = false := by
        cases h : upstreamOk lin
        · rfl
        · exact absurd h hu
      have hres : processar_item fetch item = [] := by
        unfold processar_item
        rw [if_pos helig]
        simp only [hf]
        simp only [hn]
        simp only [hu', if_true, if_false, Bool.false_eq_true]
        by_cases hlen : 0 < ns.length
        · rw [if_pos hlen]
          simp
        · rw [if_neg hlen]
      rw [hres]
      simp [hu']
  · have hd' : downstreamOk lin = false := by
      cases h : downstreamOk lin
      · rfl
      · exact absurd h hd
    have hres : processar_item fetch item = [] := by
      unfold processar_item
      rw [if_pos helig]
      simp only [hf]
      simp only [hn]
      simp only [hd', if_true, if_false, Bool.false_eq_true]
      by_cases hlen : 0 < ns.length
      · rw [if_pos hlen]
        simp
      · rw [if_neg hlen]
    rw [hres]
    simp [hd']

theorem processar_item_empty_iff_witness :
    (processar_item fetchC2 itemC2 = [] ↔
      (([⟨some "db.tabA"⟩, ⟨some "db.myVwB"⟩] : List Node).all
          (fun n => hasVw (n.fullyQualifiedName.getD "")) = true ∨
        downstreamOk linC2 = false ∨ upstreamOk linC2 = false)) :=
  processar_item_empty_iff fetchC2 itemC2 linC2
    ([⟨some "db.tabA"⟩, ⟨some "db.myVwB"⟩] : List Node) (Or.inl rfl) rfl rfl

theorem overrideLin_nodes (lin : Lineage) (f g : Nat → Bool) :
    (overrideLin lin f g).nodes = lin.nodes := rfl

theorem downstreamOk_overrideLin (lin : Lineage) (f g : Nat → Bool) :
    downstreamOk (overrideLin lin f g) = downstreamOk lin := by
  unfold overrideLin downstreamOk
  cases lin.downstreamEdges with
  | none => rfl
  | some es =>
    cases es with
    | nil => rfl
    | cons e t => rfl

theorem upstreamOk_overrideLin (lin : Lineage) (f g : Nat → Bool) :
    upstreamOk (overrideLin lin f g) = upstreamOk lin := by
  unfold overrideLin upstreamOk
  cases lin.upstreamEdges with
  | none => rfl
  | some es =>
    cases es with
    | nil => rfl
    | cons e t => rfl

theorem length_filterMap_congr {α β γ : Type} (fA : α → Option β) (fB : α → Option γ)
    (h : ∀ a, (fA a).isSome = (fB a).isSome) :
    ∀ l : List α, (l.filterMap fA).length = (l.filterMap fB).length := by
  intro l
  induction l with
  | nil => rfl
  | cons a t ih =>
    cases hA : fA a with
    | none =>
      cases hB : fB a with
      | none => simp [List.filterMap_cons, hA, hB, ih]
      | some b =>
        have hs := h a
        rw [hA, hB] at hs
        simp at hs
    | some b =>
      cases hB : fB a with
      | none =>
        have hs := h a
        rw [hA, hB] at hs
        simp at hs
      | some c => simp [List.filterMap_cons, hA, hB, ih]

/-- C5: only the first downstream and the first upstream edge are tested for
`lineageDetails`; replacing those flags arbitrarily on every edge at index
≥ 1 never changes whether (nor how often) the graph is kept. -/
theorem first_edge_gate_only (fetch fetch' : String → Option Lineage) (item : TableObj)
    (lin : Lineage) (f g : Nat → Bool)
    (h : fetch item.id = some lin)
    (h' : fetch' item.id = some (overrideLin lin f g)) :
    (processar_item fetch' item).length = (processar_item fetch item).length := by
  unfold processar_item
  by_cases helig : item.tableType = "Regular" ∨ item.tableType = "Partitioned" ∨
      item.tableType = "External"
  · rw [if_pos helig, if_pos helig]
    simp only [h, h']
    simp only [overrideLin_nodes]
    cases hn : lin.nodes with
    | none => rfl
    | some ns =>
      dsimp only
      by_cases hlen : 0 < ns.length
      · rw [if_pos hlen, if_pos hlen]
        apply length_filterMap_congr
        intro node
        simp only [downstreamOk_overrideLin, upstreamOk_overrideLin]
        by_cases h1 : hasVw (node.fullyQualifiedName.getD "") = true <;>
          by_cases h2 : downstreamOk lin = true <;>
          by_cases h3 : upstreamOk lin = true <;>
          simp [h1, h2, h3]
      · rw [if_neg hlen, if_neg hlen]
  · rw [if_neg helig, if_neg helig]

theorem first_edge_gate_only_witness :
    (processar_item fetchC5b itemC2).length = (processar_item fetchC5 itemC2).length :=
  first_edge_gate_only fetchC5 fetchC5b itemC2 linC5 (fun _ => true) (fun _ => true)
    rfl rfl

theorem exclude_lineage_cases (del : String → String → DelResp) (f t : String) :
    (exclude_lineage del f t).status = "Deletada com sucesso" ∨
      (exclude_lineage del f t).status = "Erro ao deletar" := by
  unfold exclude_lineage
  split <;> simp

theorem exclude_lineage_ok_iff (del : String → String → DelResp) (f t : String) :
    ((exclude_lineage del f t).status = "Deletada com sucesso" ↔
      del f t = .ok 200) := by
  unfold exclude_lineage
  split
  · rename_i heq
    simp [heq]
  · rename_i n heq hne
    rw [hne]
    constructor
    · intro h
      simp at h
    · intro h
      injection h with h2
      exact absurd h2 heq
  · rename_i heq
    rw [heq]
    simp

theorem dlv_downStep_irrel (del del' : String → String → DelResp) (fromId : String) :
    ∀ (st st' : DLV.DelState) (e : LinEdge),
      st.res.map DLV.keyOf = st'.res.map DLV.keyOf ∧ st.calls = st'.calls →
      (DLV.downStep del fromId st e).res.map DLV.keyOf =
          (DLV.downStep del' fromId st' e).res.map DLV.keyOf ∧
        (DLV.downStep del fromId st e).calls = (DLV.downStep del' fromId st' e).calls := by
  intro st st' e h
  obtain ⟨hres, hcalls⟩ := h
  unfold DLV.downStep
  cases he : e.toEntity with
  | none => exact ⟨hres, hcalls⟩
  | some toId =>
    dsimp only
    by_cases hc : fromId ≠ "" ∧ toId ≠ ""
    · rw [if_pos hc, if_pos hc]
      refine ⟨?_, ?_⟩ <;> simp [DLV.keyOf, hres, hcalls]
    · rw [if_neg hc, if_neg hc]
      exact ⟨hres, hcalls⟩

theorem dlv_upStep_irrel (del del' : String → String → DelResp) (fromId : String) :
    ∀ (st st' : DLV.DelState) (e : LinEdge),
      st.res.map DLV.keyOf = st'.res.map DLV.keyOf ∧ st.calls = st'.calls →
      (DLV.upStep del fromId st e).res.map DLV.keyOf =
          (DLV.upStep del' fromId st' e).res.map DLV.keyOf ∧
        (DLV.upStep del fromId st e).calls = (DLV.upStep del' fromId st' e).calls := by
  intro st st' e h
  obtain ⟨hres, hcalls⟩ := h
  unfold DLV.upStep
  cases he : e.fromEntity with
  | none => exact ⟨hres, hcalls⟩
  | some toId =>
    dsimp only
    by_cases hc : fromId ≠ "" ∧ toId ≠ ""
    · rw [if_pos hc, if_pos hc]
      refine ⟨?_, ?_⟩ <;> simp [DLV.keyOf, hres, hcalls]
    · rw [if_neg hc, if_neg hc]
      exact ⟨hres, hcalls⟩

theorem dlv_delete_irrel (del del' : String → String → DelResp)
    (data : List FilterResult) :
    (DLV.delete_lineage del data).res.map DLV.keyOf =
        (DLV.delete_lineage del' data).res.map DLV.keyOf ∧
      (DLV.delete_lineage del data).calls = (DLV.delete_lineage del' data).calls := by
  unfold DLV.delete_lineage
  refine foldl_rel
    (fun st st' => st.res.map DLV.keyOf = st'.res.map DLV.keyOf ∧ st.calls = st'.calls)
    (DLV.processItem del) (DLV.processItem del') ?_ data ⟨[], []⟩ ⟨[], []⟩ ⟨rfl, rfl⟩
  intro s s' item hr
  unfold DLV.processItem
  refine foldl_rel
    (fun st st' => st.res.map DLV.keyOf = st'.res.map DLV.keyOf ∧ st.calls = st'.calls)
    (DLV.upStep del item.id) (DLV.upStep del' item.id)
    (fun a b e hab => dlv_upStep_irrel del del' item.id a b e hab) _ _ _ ?_
  exact foldl_rel
    (fun st st' => st.res.map DLV.keyOf = st'.res.map DLV.keyOf ∧ st.calls = st'.calls)
    (DLV.downStep del item.id) (DLV.downStep del' item.id)
    (fun a b e hab => dlv_downStep_irrel del del' item.id a b e hab) _ _ _ hr

theorem dag_downStep_irrel (del del' : String → String → DelResp) (fromId fqn : String) :
    ∀ (st st' : DagOm.DelState) (e : LinEdge),
      st.pairs = st'.pairs ∧ st.res.map DagOm.keyOf = st'.res.map DagOm.keyOf ∧
        st.calls = st'.calls →
      (DagOm.downStep del fromId fqn st e).pairs = (DagOm.downStep del' fromId fqn st' e).pairs ∧
        (DagOm.downStep del fromId fqn st e).res.map DagOm.keyOf =
          (DagOm.downStep del' fromId fqn st' e).res.map DagOm.keyOf ∧
        (DagOm.downStep del fromId fqn st e).calls = (DagOm.downStep del' fromId fqn st' e).calls := by
  intro st st' e h
  obtain ⟨hp, hres, hcalls⟩ := h
  unfold DagOm.downStep
  cases he : e.toEntity with
  | none => exact ⟨hp, hres, hcalls⟩
  | some toId =>
    dsimp only
    rw [hp]
    by_cases hc : fromId ≠ "" ∧ toId ≠ "" ∧ (fromId, toId) ∉ st'.pairs ∧
        (toId, fromId) ∉ st'.pairs
    · rw [if_pos hc, if_pos hc]
      refine ⟨by simp, ?_, ?_⟩ <;> simp [DagOm.keyOf, hres, hcalls]
    · rw [if_neg hc, if_neg hc]
      exact ⟨hp, hres, hcalls⟩

theorem dag_upStep_irrel (del del' : String → String → DelResp) (fromId fqn : String) :
    ∀ (st st' : DagOm.DelState) (e : LinEdge),
      st.pairs = st'.pairs ∧ st.res.map DagOm.keyOf = st'.res.map DagOm.keyOf ∧
        st.calls = st'.calls →
      (DagOm.upStep del fromId fqn st e).pairs = (DagOm.upStep del' fromId fqn st' e).pairs ∧
        (DagOm.upStep del fromId fqn st e).res.map DagOm.keyOf =
          (DagOm.upStep del' fromId fqn st' e).res.map DagOm.keyOf ∧
        (DagOm.upStep del fromId fqn st e).calls = (DagOm.upStep del' fromId fqn st' e).calls := by
  intro st st' e h
  obtain ⟨hp, hres, hcalls⟩ := h
  unfold DagOm.upStep
  cases he : e.fromEntity with
  | none => exact ⟨hp, hres, hcalls⟩
  | some toId =>
    dsimp only
    rw [hp]
    by_cases hc : fromId ≠ "" ∧ toId ≠ "" ∧ (fromId, toId) ∉ st'.pairs ∧
        (toId, fromId) ∉ st'.pairs
    · rw [if_pos hc, if_pos hc]
      refine ⟨by simp, ?_, ?_⟩ <;> simp [DagOm.keyOf, hres, hcalls]
    · rw [if_neg hc, if_neg hc]
      exact ⟨hp, hres, hcalls⟩

theorem dag_delete_irrel (del del' : String → String → DelResp)
    (data : List FilterResult) :
    (DagOm.delete_lineage del data).pairs = (DagOm.delete_lineage del' data).pairs ∧
      (DagOm.delete_lineage del data).res.map DagOm.keyOf =
        (DagOm.delete_lineage del' data).res.map DagOm.keyOf ∧
      (DagOm.delete_lineage del data).calls = (DagOm.delete_lineage del' data).calls := by
  unfold DagOm.delete_lineage
  refine foldl_rel
    (fun st st' => st.pairs = st'.pairs ∧
      st.res.map DagOm.keyOf = st'.res.map DagOm.keyOf ∧ st.calls = st'.calls)
    (DagOm.processItem del) (DagOm.processItem del') ?_ data ⟨[], [], []⟩ ⟨[], [], []⟩
    ⟨rfl, rfl, rfl⟩
  intro s s' item hr
  unfold DagOm.processItem
  refine foldl_rel
    (fun st st' => st.pairs = st'.pairs ∧
      st.res.map DagOm.keyOf = st'.res.map DagOm.keyOf ∧ st.calls = st'.calls)
    (DagOm.upStep del item.id item.linhagem.entity.fullyQualifiedName)
    (DagOm.upStep del' item.id item.linhagem.entity.fullyQualifiedName)
    (fun a b e hab => dag_upStep_irrel del del' _ _ a b e hab) _ _ _ ?_
  exact foldl_rel
    (fun st st' => st.pairs = st'.pairs ∧
      st.res.map DagOm.keyOf = st'.res.map DagOm.keyOf ∧ st.calls = st'.calls)
    (DagOm.downStep del item.id item.linhagem.entity.fullyQualifiedName)
    (DagOm.downStep del' item.id item.linhagem.entity.fullyQualifiedName)
    (fun a b e hab => dag_downStep_irrel del del' _ _ a b e hab) _ _ _ hr

/-- C6: `exclude_lineage` returns status `"Deletada com sucesso"` exactly on
a 200 response and `"Erro ao deletar"` on any other status or a transport
exception; it is a total function (no exception escapes), and in both
variants the processed edge pairs and the issued delete calls are independent
of the responses — the stage continues after any failure. -/
theorem exclude_lineage_status_spec :
    (∀ del f t, (exclude_lineage del f t).status = "Deletada com sucesso" ∨
        (exclude_lineage del f t).status = "Erro ao deletar") ∧
    (∀ del f t, ((exclude_lineage del f t).status = "Deletada com sucesso" ↔
        del f t = .ok 200)) ∧
    (∀ del del' data,
      (DLV.delete_lineage del data).res.map DLV.keyOf =
          (DLV.delete_lineage del' data).res.map DLV.keyOf ∧
        (DLV.delete_lineage del data).calls = (DLV.delete_lineage del' data).calls) ∧
    (∀ del del' data,
      (DagOm.delete_lineage del data).res.map DagOm.keyOf =
          (DagOm.delete_lineage del' data).res.map DagOm.keyOf ∧
        (DagOm.delete_lineage del data).calls = (DagOm.delete_lineage del' data).calls) :=
  ⟨exclude_lineage_cases, exclude_lineage_ok_iff,
    fun del del' data => dlv_delete_irrel del del' data,
    fun del del' data => ⟨(dag_delete_irrel del del' data).2.1,
      (dag_delete_irrel del del' data).2.2⟩⟩

theorem dag_downStep_inv (del : String → String → DelResp) (fromId fqn : String)
    (st : DagOm.DelState) (e : LinEdge) (h : DagOm.Inv st) :
    DagOm.Inv (DagOm.downStep del fromId fqn st e) := by
  obtain ⟨hrec, hnd⟩ := h
  unfold DagOm.downStep
  cases he : e.toEntity with
  | none => exact ⟨hrec, hnd⟩
  | some toId =>
    dsimp only
    by_cases hc : fromId ≠ "" ∧ toId ≠ "" ∧ (fromId, toId) ∉ st.pairs ∧
        (toId, fromId) ∉ st.pairs
    · rw [if_pos hc]
      obtain ⟨h1, h2, h3, h4⟩ := hc
      constructor
      · intro r hr
        dsimp only at hr ⊢
        rw [List.mem_append] at hr
        rcases hr with hr | hr
        · rcases hrec r hr with hx | hx
          · exact Or.inl (List.mem_append_left _ hx)
          · exact Or.inr (List.mem_append_left _ hx)
        · rw [List.mem_singleton] at hr
          subst hr
          exact Or.inl (List.mem_append_right _ (List.mem_singleton.mpr rfl))
      · unfold DagOm.NoDupPairs at hnd ⊢
        dsimp only
        rw [List.pairwise_append]
        refine ⟨hnd, List.pairwise_singleton _ _, ?_⟩
        intro a ha b hb
        rw [List.mem_singleton] at hb
        subst hb
        intro hsp
        simp only [samePairP, DagOm.keyOf] at hsp
        rcases hrec a ha with hx | hx <;>
          rcases hsp with ⟨hs1, hs2⟩ | ⟨hs1, hs2⟩
        · rw [hs1, hs2] at hx; exact h3 hx
        · rw [hs1, hs2] at hx; exact h4 hx
        · rw [hs1, hs2] at hx; exact h4 hx
        · rw [hs1, hs2] at hx; exact h3 hx
    · rw [if_neg hc]
      exact ⟨hrec, hnd⟩

theorem dag_upStep_inv (del : String → String → DelResp) (fromId fqn : String)
    (st : DagOm.DelState) (e : LinEdge) (h : DagOm.Inv st) :
    DagOm.Inv (DagOm.upStep del fromId fqn st e) := by
  obtain ⟨hrec, hnd⟩ := h
  unfold DagOm.upStep
  cases he : e.fromEntity with
  | none => exact ⟨hrec, hnd⟩
  | some toId =>
    dsimp only
    by_cases hc : fromId ≠ "" ∧ toId ≠ "" ∧ (fromId, toId) ∉ st.pairs ∧
        (toId, fromId) ∉ st.pairs
    · rw [if_pos hc]
      obtain ⟨h1, h2, h3, h4⟩ := hc
      constructor
      · intro r hr
        dsimp only at hr ⊢
        rw [List.mem_append] at hr
        rcases hr with hr | hr
        · rcases hrec r hr with hx | hx
          · exact Or.inl (List.mem_append_left _ hx)
          · exact Or.inr (List.mem_append_left _ hx)
        · rw [List.mem_singleton] at hr
          subst hr
          exact Or.inr (List.mem_append_right _ (List.mem_singleton.mpr rfl))
      · unfold DagOm.NoDupPairs at hnd ⊢
        dsimp only
        rw [List.pairwise_append]
        refine ⟨hnd, List.pairwise_singleton _ _, ?_⟩
        intro a ha b hb
        rw [List.mem_singleton] at hb
        subst hb
        intro hsp
        simp only [samePairP, DagOm.keyOf] at hsp
        rcases hrec a ha with hx | hx <;>
          rcases hsp with ⟨hs1, hs2⟩ | ⟨hs1, hs2⟩
        · rw [hs1, hs2] at hx; exact h3 hx
        · rw [hs1, hs2] at hx; exact h4 hx
        · rw [hs1, hs2] at hx; exact h4 hx
        · rw [hs1, hs2] at hx; exact h3 hx
    · rw [if_neg hc]
      exact ⟨hrec, hnd⟩

theorem dag_processItem_inv (del : String → String → DelResp)
    (st : DagOm.DelState) (item : FilterResult) (h : DagOm.Inv st) :
    DagOm.Inv (DagOm.processItem del st item) := by
  unfold DagOm.processItem
  apply foldl_inv DagOm.Inv _ (fun s e hs => dag_upStep_inv del _ _ s e hs)
  exact foldl_inv DagOm.Inv _ (fun s e hs => dag_downStep_inv del _ _ s e hs) _ _ h

/-- C1 (corrected): the `dag_om.py` variant's deletion stage emits at most
one `DeletionResult` per unordered `{fromId, toId}` pair, for every input
artifact and delete oracle; the `deletarlinhagem.py` variant has no dedup
(see the counterexample). -/
theorem dag_delete_results_pairwise_distinct (del : String → String → DelResp)
    (data : List FilterResult) :
    (DagOm.delete_lineage del data).res.Pairwise
      (fun a b => ¬ samePairP (DagOm.keyOf a) (DagOm.keyOf b)) := by
  have h : DagOm.Inv (DagOm.delete_lineage del data) := by
    unfold DagOm.delete_lineage
    apply foldl_inv DagOm.Inv _ (fun s it hs => dag_processItem_inv del s it hs)
    exact ⟨fun r hr => absurd hr (List.not_mem_nil r), List.Pairwise.nil⟩
  exact h.2

/-- C1 counterexample: in the `deletarlinhagem.py` variant the unordered pair
`{A, B}`, occurring once as a downstream edge of table A and once as an
upstream edge of table B, yields two result rows — at most one result per
unordered pair fails in that entry variant. -/
theorem dlv_duplicate_pair_cex :
    (DLV.delete_lineage delExn dataC1).res =
      [⟨"A", "B", "Erro ao deletar"⟩, ⟨"B", "A", "Erro ao deletar"⟩] ∧
      samePairP (DLV.keyOf ⟨"A", "B", "Erro ao deletar"⟩)
        (DLV.keyOf ⟨"B", "A", "Erro ao deletar"⟩) := by
  constructor
  · rfl
  · exact Or.inr ⟨rfl, rfl⟩

/-- C4: when either deletion stage processes an upstream edge whose
`fromEntity` is X on a filter result with table id T (all guards passing),
the `exclude_lineage` call issued is ordered (X, T) — never (T, X). -/
theorem upstream_call_order :
    (∀ (del : String → String → DelResp) (T q : String) (st : DagOm.DelState)
        (e : LinEdge) (X : String),
      e.fromEntity = some X → T ≠ "" → X ≠ "" →
      (T, X) ∉ st.pairs → (X, T) ∉ st.pairs →
      (DagOm.upStep del T q st e).calls = st.calls ++ [(X, T)]) ∧
    (∀ (del : String → String → DelResp) (T : String) (st : DLV.DelState)
        (e : LinEdge) (X : String),
      e.fromEntity = some X → T ≠ "" → X ≠ "" →
      (DLV.upStep del T st e).calls = st.calls ++ [(X, T)]) := by
  constructor
  · intro del T q st e X he hT hX h1 h2
    unfold DagOm.upStep
    rw [he]
    dsimp only
    rw [if_pos ⟨hT, hX, h1, h2⟩]
  · intro del T st e X he hT hX
    unfold DLV.upStep
    rw [he]
    dsimp only
    rw [if_pos ⟨hT, hX⟩]

theorem upstream_call_order_witness :
    (DagOm.upStep delOk "T" "db.T" ⟨[], [], []⟩ edgeC4).calls = [("X", "T")] ∧
      (DLV.upStep delOk "T" ⟨[], []⟩ edgeC4).calls = [("X", "T")] := by
  constructor
  · have h := upstream_call_order.1 delOk "T" "db.T" ⟨[], [], []⟩ edgeC4 "X" rfl
      (by decide) (by decide) (by simp) (by simp)
    simpa using h
  · have h := upstream_call_order.2 delOk "T" ⟨[], []⟩ edgeC4 "X" rfl
      (by decide) (by decide)
    simpa using h

/-- C10: for an upstream edge in the `dag_om.py` variant, the appended
`DeletionResult` records `from_id` = table id T and `to_id` = upstream entity
X, the reverse of the (X, T) order passed to the delete endpoint. -/
theorem dag_upstream_record_reversed (del : String → String → DelResp)
    (T q : String) (st : DagOm.DelState) (e : LinEdge) (X : String)
    (he : e.fromEntity = some X) (hT : T ≠ "") (hX : X ≠ "")
    (h1 : (T, X) ∉ st.pairs) (h2 : (X, T) ∉ st.pairs) :
    (DagOm.upStep del T q st e).res = st.res ++
        [⟨T, q, X, e.fromEntityFullyQualifiedName.getD "",
          (exclude_lineage del X T).status⟩] ∧
      (DagOm.upStep del T q st e).calls = st.calls ++ [(X, T)] := by
  unfold DagOm.upStep
  rw [he]
  dsimp only
  rw [if_pos ⟨hT, hX, h1, h2⟩]
  exact ⟨rfl, rfl⟩

theorem dag_upstream_record_reversed_witness :
    (DagOm.upStep delOk "T" "db.T" ⟨[], [], []⟩ edgeC4).res =
        [⟨"T", "db.T", "X", "db.X", "Deletada com sucesso"⟩] ∧
      (DagOm.upStep delOk "T" "db.T" ⟨[], [], []⟩ edgeC4).calls = [("X", "T")] := by
  have h := dag_upstream_record_reversed delOk "T" "db.T" ⟨[], [], []⟩ edgeC4 "X" rfl
    (by decide) (by decide) (by simp) (by simp)
  simpa using h
